import Mathlib

/-- Big-endian bytes of a 16-bit value, as in `u16::to_be_bytes`. -/
def be16 (n : Nat) : List Nat := [n / 256 % 256, n % 256]

/-- Big-endian bytes of a 32-bit value, as in `u32::to_be_bytes`. -/
def be32 (n : Nat) : List Nat :=
  [n / 16777216 % 256, n / 65536 % 256, n / 256 % 256, n % 256]

/-- Value of two big-endian bytes, as in `u16::from_be_bytes`. -/
def val16 (a b : Nat) : Nat := a * 256 + b

/-- Value of four big-endian bytes, as in `u32::from_be_bytes`. -/
def val32 (a b c d : Nat) : Nat := a * 16777216 + b * 65536 + c * 256 + d

/-- The `DhcpMessage` struct of src/dhcp/server.rs. -/
structure DhcpMessage where
  op : Nat
  htype : Nat
  hlen : Nat
  hops : Nat
  xid : Nat
  secs : Nat
  flags : Nat
  ciaddr : List Nat
  yiaddr : List Nat
  siaddr : List Nat
  giaddr : List Nat
  chaddr : List Nat
  options : List Nat
deriving Repr, DecidableEq

/-- Decoder `DhcpMessage::from_bytes`: reject inputs shorter than 240 bytes, read
the header fields at their fixed offsets, and keep `data[240..]` as the
options block. -/
def fromBytes (data : List Nat) : Except (List Char) DhcpMessage :=
  if data.length < 240 then
    .error "DHCP message too short".data
  else
    .ok {
      op := data.getD 0 0
      htype := data.getD 1 0
      hlen := data.getD 2 0
      hops := data.getD 3 0
      xid := val32 (data.getD 4 0) (data.getD 5 0) (data.getD 6 0) (data.getD 7 0)
      secs := val16 (data.getD 8 0) (data.getD 9 0)
      flags := val16 (data.getD 10 0) (data.getD 11 0)
      ciaddr := (data.drop 12).take 4
      yiaddr := (data.drop 16).take 4
      siaddr := (data.drop 20).take 4
      giaddr := (data.drop 24).take 4
      chaddr := (data.drop 28).take 16
      options := if 240 < data.length then data.drop 240 else []
    }

/-- Encoder `DhcpMessage::to_bytes`: a 240-byte buffer initialised to zero, the
header fields written at offsets 0..44, and the options appended.  Bytes
44..240 (`sname`, `file`, and the magic-cookie slot 236..240) are never
written, so they stay zero. -/
def toBytes (m : DhcpMessage) : List Nat :=
  [m.op, m.htype, m.hlen, m.hops]
    ++ be32 m.xid ++ be16 m.secs ++ be16 m.flags
    ++ m.ciaddr ++ m.yiaddr ++ m.siaddr ++ m.giaddr
    ++ m.chaddr
    ++ List.replicate 196 0
    ++ m.options

/-- Inner walk of `DhcpMessage::get_option`: the `while i < options.len()`
loop.  A byte of `255` stops; a matching tag whose length-prefixed payload
fits is returned; otherwise the walk advances by `2 + len` (there is no
special case for the pad byte `0`); a truncated record ends the walk. -/
def getOptionAux (opts : List Nat) (tag : Nat) (i : Nat) : Option (List Nat) :=
  if h : i < opts.length then
    if opts.getD i 0 = 255 then none
    else if opts.getD i 0 = tag ∧ i + 1 < opts.length ∧
        i + 2 + opts.getD (i + 1) 0 ≤ opts.length then
      some ((opts.drop (i + 2)).take (opts.getD (i + 1) 0))
    else if i + 1 < opts.length then
      getOptionAux opts tag (i + 2 + opts.getD (i + 1) 0)
    else none
  else none
termination_by opts.length - i
decreasing_by omega

/-- Lookup `DhcpMessage::get_option`, starting the walk at index 0. -/
def getOption (opts : List Nat) (tag : Nat) : Option (List Nat) :=
  getOptionAux opts tag 0

/-- Reader `DhcpMessage::get_message_type`: first byte of option 53 (0 if empty). -/
def getMessageType (m : DhcpMessage) : Option Nat :=
  (getOption m.options 53).map (fun v => if v ≠ [] then v.getD 0 0 else 0)

/-- Reader `DhcpMessage::get_client_arch`: big-endian u16 from option 93 (0 if
shorter than two bytes). -/
def getClientArch (m : DhcpMessage) : Option Nat :=
  (getOption m.options 93).map (fun v =>
    if 2 ≤ v.length then val16 (v.getD 0 0) (v.getD 1 0) else 0)

def b1 : List Nat := List.replicate 44 0 ++ 1 :: List.replicate 195 0

def m0 : DhcpMessage :=
  { op := 1, htype := 1, hlen := 6, hops := 0, xid := 305419896, secs := 0, flags := 0
    ciaddr := [0,0,0,0], yiaddr := [0,0,0,0], siaddr := [0,0,0,0], giaddr := [0,0,0,0]
    chaddr := List.replicate 16 0, options := [53, 1, 1, 255] }

abbrev Mac := List Nat

/-- IPv4 address value from four octets, as `Ipv4Addr::new`. -/
def mkIp (a b c d : Nat) : Nat := val32 a b c d

/-- The cursor advance of `IpPool::allocate`: `wrapping_add(1)` on the last
octet, carrying into the third octet only (never into the first two). -/
def ipStep (ip : Nat) : Nat :=
  let o0 := ip / 16777216 % 256
  let o1 := ip / 65536 % 256
  let o2 := ip / 256 % 256
  let o3 := ip % 256
  let last := (o3 + 1) % 256
  if last = 0 then mkIp o0 o1 ((o2 + 1) % 256) 0 else mkIp o0 o1 o2 last

/-- The `IpPool` struct: pool bounds, scan cursor, and the MAC → IP lease
table (association list; `HashMap` inserts of fresh keys become conses). -/
structure IpPool where
  startIp : Nat
  endIp : Nat
  current : Nat
  leases : List (Mac × Nat)
deriving Repr, DecidableEq

def leaseValues (l : List (Mac × Nat)) : List Nat := l.map Prod.snd

/-- The scan loop of `IpPool::allocate`, with explicit fuel (the Rust loop
is unbounded; `POOL_FUEL` exceeds the number of steps any terminating scan
can take).  Per iteration: wrap `candidate` to `start` once it passes
`end`; a candidate that is no current lease value is chosen; otherwise
advance by `ipStep` and give up when the advanced candidate reaches the
starting cursor. -/
def allocLoop (s e cur0 : Nat) (vals : List Nat) : Nat → Nat → Option Nat
  | _, 0 => none
  | cand, fuel + 1 =>
    let c := if e < cand then s else cand
    if c ∈ vals then
      let c2 := ipStep c
      if c2 = cur0 then none else allocLoop s e cur0 vals c2 fuel
    else some c

def POOL_FUEL : Nat := 2 ^ 32 + 2

/-- Allocator `IpPool::allocate`: an existing lease for the MAC is returned as is;
otherwise the scan loop runs from the cursor, and on success the cursor
moves to the successor of the chosen IP and the lease is recorded. -/
def IpPool.allocate (p : IpPool) (mac : Mac) : Option Nat × IpPool :=
  match p.leases.lookup mac with
  | some ip => (some ip, p)
  | none =>
    match allocLoop p.startIp p.endIp p.current (leaseValues p.leases) p.current POOL_FUEL with
    | some c => (some c, { p with current := ipStep c, leases := (mac, c) :: p.leases })
    | none => (none, p)

/-- A sequence of `allocate` calls, returning the results in order. -/
def runAllocs (p : IpPool) : List Mac → List (Option Nat) × IpPool
  | [] => ([], p)
  | m :: ms =>
    let r := p.allocate m
    let rest := runAllocs r.2 ms
    (r.1 :: rest.1, rest.2)

def macsW : List Mac := [[0,0,0,0,0,1],[0,0,0,0,0,2],[0,0,0,0,0,3],[0,0,0,0,0,4]]

inductive BootProtocol
  | efi
  | legacy
  | dhcpBoot
deriving Repr, DecidableEq

/-- The `ProtocolConfig` booleans together with the optional filename
overrides that `protocols.rs` reads (filenames as byte strings). -/
structure ProtocolConfig where
  efi : Bool
  legacy : Bool
  dhcp_boot : Bool
  boot_filename_efi : Option (List Nat)
  boot_filename_legacy : Option (List Nat)
  boot_filename_dhcp_boot : Option (List Nat)
deriving Repr, DecidableEq

/-- The default-selection tail of `ProtocolHandler::select_protocol`. -/
def defaultSelect (config : ProtocolConfig) : Option BootProtocol :=
  if config.efi then some .efi
  else if config.legacy then some .legacy
  else if config.dhcp_boot then some .dhcpBoot
  else none

/-- Selector `ProtocolHandler::select_protocol`: arch 6 returns EFI or `None`
(early return), arch 0/1 returns Legacy or `None` (early return), anything
else falls through to default selection. -/
def selectProtocol (config : ProtocolConfig) (clientArch : Option Nat) : Option BootProtocol :=
  match clientArch with
  | some 6 => if config.efi then some .efi else none
  | some 0 => if config.legacy then some .legacy else none
  | some 1 => if config.legacy then some .legacy else none
  | _ => defaultSelect config

def strBytes (s : String) : List Nat := s.data.map Char.toNat

/-- Lookup `ProtocolHandler::get_boot_filename`: the configured override or the
compiled-in default per protocol. -/
def getBootFilename (protocol : BootProtocol) (config : ProtocolConfig) : List Nat :=
  match protocol with
  | .efi => config.boot_filename_efi.getD (strBytes "bootx64.efi")
  | .legacy => config.boot_filename_legacy.getD (strBytes "pxelinux.0")
  | .dhcpBoot => config.boot_filename_dhcp_boot.getD (strBytes "pxelinux.0")

/-! ## TFTP read transfer (src/tftp/server.rs, `handle_read_with_channel`) -/

inductive TransferEvent
  | sentData (blockNum : Nat) (chunk : List Nat)
  | gotAck (blockNum : Nat)
deriving Repr, DecidableEq

/-- Block-number advance of the transfer loop: `wrapping_add(1)` on a u16,
then mapping 0 back to 1. -/
def nextBlock (b : Nat) : Nat :=
  let b2 := (b + 1) % 65536
  if b2 = 0 then 1 else b2

/-- The send/ACK loop of `handle_read_with_channel`.  Each iteration sends
`DATA(block_num, file_data[offset..offset+min(remaining,512)])`, then waits
on the ACK inbox: an empty list models a closed channel (terminate); a
packet shorter than 4 bytes, a non-ACK opcode or a wrong block number
terminates; a matching ACK advances, finishing when the chunk was short. -/
def transferLoop (fileData : List Nat) (blockNum offset : Nat) :
    List (List Nat) → List TransferEvent
  | [] =>
    [.sentData blockNum ((fileData.drop offset).take (min (fileData.length - offset) 512))]
  | ack :: rest =>
    let chunkSize := min (fileData.length - offset) 512
    .sentData blockNum ((fileData.drop offset).take chunkSize) ::
      (if 4 ≤ ack.length then
        if val16 (ack.getD 0 0) (ack.getD 1 0) = 4 ∧
            val16 (ack.getD 2 0) (ack.getD 3 0) = blockNum then
          .gotAck blockNum ::
            (if chunkSize < 512 then []
             else transferLoop fileData (nextBlock blockNum) (offset + chunkSize) rest)
        else []
      else [])

/-- The ACK stream assumed by the claim: every sent DATA block is answered
by a well-formed ACK carrying the same block number. -/
def matchingAcks (blockNum rem : Nat) : List (List Nat) :=
  if rem < 512 then [[0, 4] ++ be16 blockNum]
  else ([0, 4] ++ be16 blockNum) :: matchingAcks (nextBlock blockNum) (rem - 512)
termination_by rem
decreasing_by omega

/-- The fully-acknowledged transfer trace: send / ack pairs in lockstep. -/
def lockstepTrace (fileData : List Nat) (b offset : Nat) : List TransferEvent :=
  if fileData.length - offset < 512 then
    [.sentData b ((fileData.drop offset).take (fileData.length - offset)), .gotAck b]
  else
    .sentData b ((fileData.drop offset).take 512) :: .gotAck b ::
      lockstepTrace fileData (nextBlock b) (offset + 512)
termination_by fileData.length - offset
decreasing_by omega

/-- Projection of the DATA sends of a trace: (block number, payload length). -/
def sentOf : List TransferEvent → List (Nat × Nat)
  | [] => []
  | .sentData b c :: t => (b, c.length) :: sentOf t
  | .gotAck _ :: t => sentOf t

/-- The (block, payload length) pairs a fully-acknowledged transfer of
`rem` remaining bytes produces, starting at block `b`. -/
def sendPairs (b rem : Nat) : List (Nat × Nat) :=
  if rem < 512 then [(b, rem)] else (b, 512) :: sendPairs (nextBlock b) (rem - 512)
termination_by rem
decreasing_by omega

/-- Block numbers of `n` successive blocks starting at `b`. -/
def blockSeq (b : Nat) : Nat → List Nat
  | 0 => []
  | n + 1 => b :: blockSeq (nextBlock b) n

/-- The lockstep invariant: the trace is a sequence of send/ack pairs, each
DATA block acknowledged (with the same block number) before the next DATA
is sent; the final send is also acknowledged. -/
inductive LockstepShape : List TransferEvent → Prop
  | last (b : Nat) (c : List Nat) : LockstepShape [.sentData b c, .gotAck b]
  | step (b : Nat) (c : List Nat) (t : List TransferEvent) :
      LockstepShape t → LockstepShape (.sentData b c :: .gotAck b :: t)

/-! ## DHCP responder (src/dhcp/options.rs and src/dhcp/server.rs) -/

/-- Fields of `DhcpConfig` the responder reads.  The source stores IPs as
strings and parses them at use sites; the embedding stores each field as
its parse result (`none` = absent or unparseable; `subnet_mask` is
`unwrap`ped by `build_options`, so it is kept parsed). -/
structure DhcpConfig where
  protocols : ProtocolConfig
  subnet_mask : List Nat
  gateway : Option (Option (List Nat))
  dns_servers : List (Option (List Nat))
  next_server : Option (List Nat)
deriving Repr, DecidableEq

/-- Octets of an IPv4 address value. -/
def ipOctets (ip : Nat) : List Nat :=
  [ip / 16777216 % 256, ip / 65536 % 256, ip / 256 % 256, ip % 256]

/-- Builder `DhcpOptions::build_options`.  Note: the function takes no message-type
parameter and hardcodes option 53 = 2 (Offer), although its caller in
server.rs computes and passes a response message type. -/
def buildOptions (config : DhcpConfig) : List Nat :=
  [53, 1, 2, 1, 4] ++ config.subnet_mask
    ++ (match config.gateway with
        | some (some gw) => [3, 4] ++ gw
        | _ => [])
    ++ (if config.dns_servers.isEmpty then [] else
        [6, config.dns_servers.length * 4 % 256] ++
          config.dns_servers.foldl (fun acc d => acc ++ d.getD []) [])
    ++ [51, 4] ++ be32 3600
    ++ [54, 4] ++ config.next_server.getD []
    ++ [255]

/-- Builder `DhcpOptions::build_filename_option`: option 67 with the filename
bytes, then an end marker. -/
def buildFilenameOption (filename : List Nat) : List Nat :=
  [67, filename.length % 256] ++ filename ++ [255]

/-- Handler `DhcpServer::handle_request`: act on Discover (1) / Request (3) only;
allocate an IP for `chaddr[0..6]`; select protocol and filename; build the
reply header; options are `build_options` with its end marker popped, then
the filename option.  The computed response message type (2 for Discover,
5 for Request) cannot be passed to `build_options`, which takes no such
parameter. -/
def handleRequest (request : DhcpMessage) (pool : IpPool) (config : DhcpConfig) :
    Option (DhcpMessage × Bool) × IpPool :=
  match getMessageType request with
  | none => (none, pool)
  | some msgType =>
    if msgType ≠ 1 ∧ msgType ≠ 3 then (none, pool)
    else
      let mac := request.chaddr.take 6
      match pool.allocate mac with
      | (none, pool') => (none, pool')
      | (some clientIp, pool') =>
        let clientArch := getClientArch request
        match selectProtocol config.protocols clientArch with
        | none => (none, pool')
        | some protocol =>
          let filename := getBootFilename protocol config.protocols
          let _responseMsgType : Nat := if msgType = 1 then 2 else 5
          match config.next_server with
          | none => (none, pool')
          | some siaddr =>
            let response : DhcpMessage := {
              op := 2, htype := request.htype, hlen := request.hlen, hops := 0,
              xid := request.xid, secs := 0, flags := request.flags,
              ciaddr := [0, 0, 0, 0], yiaddr := ipOctets clientIp, siaddr := siaddr,
              giaddr := [0, 0, 0, 0], chaddr := request.chaddr,
              options := (buildOptions config).dropLast ++ buildFilenameOption filename }
            let shouldBroadcast := msgType = 1 ∨ request.ciaddr = [0, 0, 0, 0]
            (some (response, shouldBroadcast), pool')

def reqRequest : DhcpMessage :=
  { op := 1, htype := 1, hlen := 6, hops := 0, xid := 1, secs := 0, flags := 0,
    ciaddr := [0, 0, 0, 0], yiaddr := [0, 0, 0, 0], siaddr := [0, 0, 0, 0],
    giaddr := [0, 0, 0, 0], chaddr := [0, 17, 34, 51, 68, 85] ++ List.replicate 10 0,
    options := [53, 1, 3, 255] }

def cfg0 : DhcpConfig :=
  { protocols := ⟨true, true, true, none, none, none⟩, subnet_mask := [255, 255, 255, 0],
    gateway := some (some [192, 168, 1, 1]), dns_servers := [some [8, 8, 8, 8]],
    next_server := some [192, 168, 1, 1] }

def pool0 : IpPool := ⟨3232235876, 3232235976, 3232235876, []⟩

/-! ## Filesystem layer (src/filesystem/) -/

/-- Errors `FileSystemError` of src/filesystem/mod.rs (message payloads kept). -/
inductive FsError
  | notFound (msg : List Char)
  | io
  | invalidPath (msg : List Char)
  | archive (msg : List Char)
deriving Repr, DecidableEq

/-- Resolver `DirectoryFileSystem::resolve_path`.  Paths are component lists
(`PathBuf::starts_with` compares whole components); `canon` is the
`Path::canonicalize` oracle of the surrounding filesystem, `none` meaning
the syscall failed.  The virtual path is stripped of leading slashes,
split into components, joined onto the canonical `root`, canonicalized,
and accepted only when `root` is a component-prefix of the result. -/
def resolvePath (canon : List (List Char) → Option (List (List Char)))
    (root : List (List Char)) (path : List Char) :
    Except FsError (List (List Char)) :=
  let normalized := path.dropWhile (· = '/')
  match canon (root ++ normalized.splitOn '/') with
  | none => .error (.notFound path)
  | some fullPath =>
    if !root.isPrefixOf fullPath then .error (.invalidPath "Path traversal detected".data)
    else .ok fullPath

/-! ## Archive filesystem listing (src/filesystem/tarfs.rs, `list_dir`) -/

/-- The listing prefix: empty for the root, otherwise the normalized path
with a trailing '/' ensured. -/
def listPre (normalized : List Char) : List Char :=
  if normalized.isEmpty then []
  else if normalized.getLast? = some '/' then normalized
  else normalized ++ ['/']

/-- The display name `list_dir` pushes for a first segment `seg`: the
segment, with '/' appended iff some stored key extends `pre ++ seg ++ "/"`. -/
def dispName (keys : List (List Char)) (pre seg : List Char) : List Char :=
  if keys.any (fun k' => (pre ++ seg ++ ['/']).isPrefixOf k') then seg ++ ['/'] else seg

/-- The key-iteration loop of `TarFileSystem::list_dir`: for every stored
key starting with the prefix, take the first path segment of the
remainder, skip it if seen, otherwise record it (with '/' iff some key
extends it further). -/
def listDirLoop (allKeys : List (List Char)) (pre : List Char) :
    List (List Char) → List (List Char) → List (List Char) → List (List Char)
  | [], _seen, acc => acc
  | k :: rest, seen, acc =>
    if pre.isPrefixOf k then
      let first := (k.drop pre.length).takeWhile (· ≠ '/')
      if first ∈ seen then listDirLoop allKeys pre rest seen acc
      else listDirLoop allKeys pre rest (first :: seen)
        (acc ++ [dispName allKeys pre first])
    else listDirLoop allKeys pre rest seen acc

/-- Listing `TarFileSystem::list_dir` over the stored key set. -/
def listDir (keys : List (List Char)) (path : List Char) : List (List Char) :=
  listDirLoop keys (listPre (path.dropWhile (· = '/'))) keys [] []

/-! ## TFTP receive loop bookkeeping (src/tftp/server.rs, `start`) -/

inductive TftpOpcodeM
  | readRequest
  | writeRequest
  | dataOp
  | ackOp
  | errorOp
deriving Repr, DecidableEq

/-- Packet `TftpPacket`: opcode plus the bytes after the two opcode bytes. -/
structure TftpPacketM where
  opcode : TftpOpcodeM
  data : List Nat
deriving Repr, DecidableEq

/-- Extractor `TftpPacket::extract_filename`: for RRQ/WRQ only, find the first NUL
in the payload (propagating `None` when there is none) and decode the
bytes before it; `decode` is the `String::from_utf8(..).ok()` oracle. -/
def TftpPacketM.extractFilename (decode : List Nat → Option (List Char))
    (p : TftpPacketM) : Option (List Char) :=
  if p.opcode = .readRequest ∨ p.opcode = .writeRequest then
    match p.data.findIdx? (fun b => b == 0) with
    | none => none
    | some nullPos => decode (p.data.take nullPos)
  else none

/-- Bookkeeping state of the TFTP receive loop: the peers registered in
the `active_transfers` map, and the peers owning a live transfer task. -/
structure TftpLoopState where
  transfers : List Nat
  tasks : List Nat
deriving Repr, DecidableEq

inductive TftpLoopEvent
  | rrq (peer : Nat) (payload : List Nat)
  | ackFrom (peer : Nat) (fwdOk : Bool)
  | taskExit (peer : Nat)
deriving Repr, DecidableEq

def eventPeer : TftpLoopEvent → Nat
  | .rrq p _ => p
  | .ackFrom p _ => p
  | .taskExit p => p

def insertPeer (p : Nat) (l : List Nat) : List Nat := if p ∈ l then l else p :: l

def removePeer (p : Nat) (l : List Nat) : List Nat := l.filter (fun q => q != p)

/-- One iteration of the receive loop (plus task termination).  On an RRQ
the peer's inbox is registered in `transfers` BEFORE the filename is
extracted, and a task is spawned only when extraction succeeds; on an ACK
the entry is removed only when the forward fails; a task removes its own
peer when it exits through a removing path. -/
def tftpStep (decode : List Nat → Option (List Char)) (s : TftpLoopState) :
    TftpLoopEvent → TftpLoopState
  | .rrq peer payload =>
    let transfers' := insertPeer peer s.transfers
    match TftpPacketM.extractFilename decode ⟨.readRequest, payload⟩ with
    | some _ => { transfers := transfers', tasks := insertPeer peer s.tasks }
    | none => { transfers := transfers', tasks := s.tasks }
  | .ackFrom peer fwdOk =>
    if peer ∈ s.transfers ∧ fwdOk = false then
      { s with transfers := removePeer peer s.transfers }
    else s
  | .taskExit peer =>
    if peer ∈ s.tasks then
      { transfers := removePeer peer s.transfers, tasks := removePeer peer s.tasks }
    else s

/-! ## Theorems -/

theorem be16_val16 (a b : Nat) (ha : a < 256) (hb : b < 256) :
    be16 (val16 a b) = [a, b] := by
  simp only [be16, val16]
  congr 1
  · omega
  · congr 1
    omega

theorem be32_val32 (a b c d : Nat) (ha : a < 256) (hb : b < 256)
    (hc : c < 256) (hd : d < 256) : be32 (val32 a b c d) = [a, b, c, d] := by
  simp only [be32, val32]
  congr 1
  · omega
  congr 1
  · omega
  congr 1
  · omega
  congr 1
  omega

theorem getD_drop_nat (b : List Nat) (k i : Nat) :
    (b.drop k).getD i 0 = b.getD (k + i) 0 := by
  simp [List.getD, List.getElem?_drop]

theorem take_two_getD (l : List Nat) (h : 2 ≤ l.length) :
    l.take 2 = [l.getD 0 0, l.getD 1 0] := by
  rcases l with _ | ⟨a, _ | ⟨b, t⟩⟩ <;> simp_all [List.getD]

theorem take_four_getD (l : List Nat) (h : 4 ≤ l.length) :
    l.take 4 = [l.getD 0 0, l.getD 1 0, l.getD 2 0, l.getD 3 0] := by
  rcases l with _ | ⟨a, _ | ⟨b, _ | ⟨c, _ | ⟨d, t⟩⟩⟩⟩ <;> simp_all [List.getD]

theorem getD_lt_of_bytes (b : List Nat) (i : Nat) (hi : i < b.length)
    (hb : ∀ x ∈ b, x < 256) : b.getD i 0 < 256 := by
  rw [List.getD_eq_getElem b 0 hi]
  exact hb _ (List.getElem_mem hi)

theorem take_two_at (b : List Nat) (k : Nat) (h : k + 2 ≤ b.length) :
    (b.drop k).take 2 = [b.getD k 0, b.getD (k+1) 0] := by
  rw [take_two_getD (b.drop k) (by simp [List.length_drop]; omega)]
  simp [getD_drop_nat]

theorem take_four_at (b : List Nat) (k : Nat) (h : k + 4 ≤ b.length) :
    (b.drop k).take 4 = [b.getD k 0, b.getD (k+1) 0, b.getD (k+2) 0, b.getD (k+3) 0] := by
  rw [take_four_getD (b.drop k) (by simp [List.length_drop]; omega)]
  simp [getD_drop_nat]

theorem take_44_split (b : List Nat) :
    b.take 44 = b.take 4 ++ (b.drop 4).take 4 ++ (b.drop 8).take 2 ++ (b.drop 10).take 2
      ++ (b.drop 12).take 4 ++ (b.drop 16).take 4 ++ (b.drop 20).take 4 ++ (b.drop 24).take 4
      ++ (b.drop 28).take 16 := by
  have h4 : (44:Nat) = 4 + (4 + (2 + (2 + (4 + (4 + (4 + (4 + 16))))))) := by norm_num
  rw [h4, List.take_add, List.take_add, List.take_add, List.take_add, List.take_add,
    List.take_add, List.take_add, List.take_add]
  simp [List.drop_drop, List.append_assoc]

/-- Claim C1 (corrected).  For every byte string of length at least 240,
decoding then re-encoding reproduces the first 44 bytes (header fields)
exactly and appends the options bytes `b[240..]` verbatim, but zero-fills
bytes 44..240 (`sname`, `file` and the magic-cookie slot are not kept by
the struct and not rewritten by the encoder). -/
theorem c1_roundtrip_amended (b : List Nat) (hlen : 240 ≤ b.length) (hb : ∀ x ∈ b, x < 256) :
    ∃ m, fromBytes b = .ok m ∧
      toBytes m = b.take 44 ++ List.replicate 196 0 ++ b.drop 240 := by
  rw [fromBytes, if_neg (by omega)]
  refine ⟨_, rfl, ?_⟩
  simp only [toBytes]
  rw [be32_val32 _ _ _ _ (getD_lt_of_bytes b 4 (by omega) hb) (getD_lt_of_bytes b 5 (by omega) hb)
    (getD_lt_of_bytes b 6 (by omega) hb) (getD_lt_of_bytes b 7 (by omega) hb)]
  rw [be16_val16 _ _ (getD_lt_of_bytes b 8 (by omega) hb) (getD_lt_of_bytes b 9 (by omega) hb)]
  rw [be16_val16 _ _ (getD_lt_of_bytes b 10 (by omega) hb) (getD_lt_of_bytes b 11 (by omega) hb)]
  rw [take_44_split b, take_four_getD b (by omega), take_four_at b 4 (by omega),
    take_two_at b 8 (by omega), take_two_at b 10 (by omega)]
  have hopts : (if 240 < b.length then b.drop 240 else []) = b.drop 240 := by
    split
    · rfl
    · rw [List.drop_eq_nil_of_le (by omega)]
  rw [hopts]

set_option maxRecDepth 4000 in
/-- Claim C1 counterexample.  The claim as stated — `to_bytes ∘ from_bytes`
reproduces the whole 240-byte prefix — fails on an input whose byte 44 is
nonzero: the round trip zeroes it. -/
theorem c1_roundtrip_counterexample : (fromBytes b1).toOption.map toBytes ≠ some b1 := by decide

set_option maxRecDepth 4000 in
/-- Claim C1 witness: the amended round-trip theorem applied to the
constant byte string of 240 sevens. -/
theorem c1_roundtrip_witness :
    240 ≤ (List.replicate 240 7 : List Nat).length ∧
    (∀ x ∈ (List.replicate 240 7 : List Nat), x < 256) ∧
    ∃ m, fromBytes (List.replicate 240 7) = .ok m ∧
      toBytes m = (List.replicate 240 7 : List Nat).take 44 ++ List.replicate 196 0
        ++ (List.replicate 240 7 : List Nat).drop 240 :=
  ⟨by decide, by decide,
    c1_roundtrip_amended (List.replicate 240 7) (by decide) (by decide)⟩

/-- Claim C7 (code bug).  The spec requires the encoder to emit the DHCP
magic cookie at bytes 236..240, but `to_bytes` leaves them zero: at a
concrete message the encoded bytes 236..240 are 0,0,0,0, not
0x63 0x82 0x53 0x63. -/
theorem c7_magic_cookie_bug : ((toBytes m0).drop 236).take 4 = [0, 0, 0, 0] ∧
    ((toBytes m0).drop 236).take 4 ≠ [99, 130, 83, 99] := by decide

theorem getD_append_right_nat (pre rest : List Nat) (j : Nat) :
    (pre ++ rest).getD (pre.length + j) 0 = rest.getD j 0 := by
  simp [List.getD, List.getElem?_append_right (by omega : pre.length ≤ pre.length + j)]

theorem getOptionAux_append_shift (pre rest : List Nat) (tag : Nat) :
    ∀ n j, rest.length - j ≤ n →
      getOptionAux (pre ++ rest) tag (pre.length + j) = getOptionAux rest tag j := by
  intro n
  induction n with
  | zero =>
    intro j hj
    conv_lhs => rw [getOptionAux]
    conv_rhs => rw [getOptionAux]
    rw [dif_neg (by simp; omega), dif_neg (by omega)]
  | succ n ih =>
    intro j hj
    by_cases hjl : j < rest.length
    · conv_lhs => rw [getOptionAux]
      conv_rhs => rw [getOptionAux]
      rw [dif_pos (by simp; omega), dif_pos hjl]
      have h1 : (pre ++ rest).getD (pre.length + j) 0 = rest.getD j 0 :=
        getD_append_right_nat pre rest j
      have h2 : (pre ++ rest).getD (pre.length + j + 1) 0 = rest.getD (j + 1) 0 := by
        rw [Nat.add_assoc]
        exact getD_append_right_nat pre rest (j + 1)
      have h3 : (pre ++ rest).drop (pre.length + j + 2) = rest.drop (j + 2) := by
        rw [Nat.add_assoc, List.drop_append]
      simp only [h1, h2, h3, List.length_append,
        show pre.length + j + 1 < pre.length + rest.length ↔ j + 1 < rest.length from by omega,
        show ∀ x : Nat, (pre.length + j + 2 + x ≤ pre.length + rest.length ↔
          j + 2 + x ≤ rest.length) from fun x => by omega]
      split_ifs with hc1 hc2 hc3
      · rfl
      · rfl
      · have harg : pre.length + j + 2 + rest.getD (j + 1) 0 =
            pre.length + (j + 2 + rest.getD (j + 1) 0) := by omega
        rw [harg]
        exact ih _ (by omega)
      · rfl
    · conv_lhs => rw [getOptionAux]
      conv_rhs => rw [getOptionAux]
      rw [dif_neg (by simp; omega), dif_neg (by omega)]

/-- Claim C8 (corrected).  The option walk of `get_option`: a byte of 255
stops the walk; any other tag — including the pad byte 0, which gets no
special one-byte advance — reads the next byte as a length, returns the
payload if the tag matches, and otherwise skips `2 + len` bytes. -/
theorem c8_get_option_amended (t l : Nat) (payload rest : List Nat) (tag : Nat) (hl : payload.length = l) :
    getOption (t :: l :: (payload ++ rest)) tag =
      if t = 255 then none else if t = tag then some payload else getOption rest tag := by
  subst hl
  conv_lhs => rw [getOption, getOptionAux]
  rw [dif_pos (by simp)]
  simp only [List.getD_cons_zero, List.getD_cons_succ, Nat.zero_add, List.length_cons,
    List.length_append]
  by_cases h255 : t = 255
  · simp [h255]
  · rw [if_neg h255, if_neg h255]
    by_cases htag : t = tag
    · rw [if_pos htag, if_pos ⟨htag, by omega, by omega⟩]
      rw [show List.drop 2 (t :: payload.length :: (payload ++ rest)) = payload ++ rest
        from rfl, List.take_left]
    · rw [if_neg htag, if_neg (by rintro ⟨h, -⟩; exact htag h), if_pos (by omega)]
      show getOptionAux (t :: payload.length :: (payload ++ rest)) tag
        (0 + 2 + (t :: payload.length :: (payload ++ rest)).getD (0 + 1) 0) = getOption rest tag
      have harg : 0 + 2 + (t :: payload.length :: (payload ++ rest)).getD (0 + 1) 0 =
          (t :: payload.length :: payload).length + 0 := by
        simp only [List.getD_cons_succ, List.getD_cons_zero, List.length_cons, Nat.add_zero]
        omega
      rw [harg, show t :: payload.length :: (payload ++ rest) =
          (t :: payload.length :: payload) ++ rest from by simp,
        getOptionAux_append_shift (t :: payload.length :: payload) rest tag rest.length 0
          (by omega)]
      rfl

/-- Claim C8 witness: the amended walk applied to a record with tag 0 and
declared length 1 sitting before an option-53 record. -/
theorem c8_get_option_witness :
    ([9] : List Nat).length = 1 ∧
    getOption (0 :: 1 :: ([9] ++ [53, 1, 2, 255])) 53 =
      (if (0 : Nat) = 255 then none
       else if (0 : Nat) = 53 then some [9] else getOption [53, 1, 2, 255] 53) :=
  ⟨rfl, c8_get_option_amended 0 1 [9] [53, 1, 2, 255] 53 rfl⟩

/-- Claim C8 counterexample.  A pad byte before a record is not skipped by
one byte: `get_option` finds option 53 in `[53,1,2,255]` but returns
`None` on `[0,53,1,2,255]` (the 0 is read as a tag with length byte 53),
so a stream with a pad byte before a record is not parsed as claimed. -/
theorem c8_get_option_counterexample :
    getOption [0, 53, 1, 2, 255] 53 = none ∧
    getOption [53, 1, 2, 255] 53 = some [2] := by
  constructor
  · rw [getOption, getOptionAux]
    norm_num [List.getD]
    rw [getOptionAux]
    norm_num [List.getD]
  · rw [getOption, getOptionAux]
    norm_num [List.getD]

theorem ipStep_eq_succ (ip : Nat) (hlo : ip % 65536 ≠ 65535) (h32 : ip < 4294967296) :
    ipStep ip = ip + 1 := by
  simp only [ipStep, mkIp, val32]
  split_ifs <;> omega

theorem lookup_eq_none_of_not_mem_keys (L : List (Mac × Nat)) (m : Mac)
    (h : m ∉ L.map Prod.fst) : L.lookup m = none := by
  induction L with
  | nil => rfl
  | cons p t ih =>
    simp only [List.map_cons, List.mem_cons] at h
    push_neg at h
    show (match m == p.1 with | true => some p.2 | false => List.lookup m t) = none
    rw [show (m == p.1) = false from beq_eq_false_iff_ne.mpr h.1]
    exact ih h.2

theorem allocLoop_found (s e cur0 c : Nat) (vals : List Nat) (fuel : Nat) (hf : 0 < fuel)
    (hle : ¬ e < c) (hnm : c ∉ vals) : allocLoop s e cur0 vals c fuel = some c := by
  cases fuel with
  | zero => omega
  | succ f => simp [allocLoop, if_neg hle, hnm]

theorem allocLoop_exhaust_inner (s e : Nat) (vals : List Nat)
    (hmem : ∀ ip, s ≤ ip → ip ≤ e → ip ∈ vals)
    (hse : s ≤ e) (hhi : s / 65536 = e / 65536) (hlo : e % 65536 < 65535)
    (he32 : e < 4294967296) :
    ∀ fuel j, 1 ≤ j → j ≤ e - s → e - s - j + 1 ≤ fuel →
      allocLoop s e (e + 1) vals (s + j) fuel = none := by
  intro fuel
  induction fuel with
  | zero => intro j h1 h2 h3; omega
  | succ f ih =>
    intro j h1 h2 h3
    have hcand_le : s + j ≤ e := by omega
    have hm : s + j ∈ vals := hmem _ (by omega) hcand_le
    have hstep : ipStep (s + j) = s + j + 1 := ipStep_eq_succ _ (by omega) (by omega)
    simp only [allocLoop]
    rw [if_neg (by omega : ¬ e < s + j), if_pos hm, hstep]
    by_cases hej : s + j + 1 = e + 1
    · rw [if_pos hej]
    · rw [if_neg hej]
      have : s + j + 1 = s + (j + 1) := by omega
      rw [this]
      exact ih (j + 1) (by omega) (by omega) (by omega)

theorem allocate_fresh (s e k : Nat) (L : List (Mac × Nat)) (mac : Mac)
    (hk : k ≤ e - s) (hse : s ≤ e) (hhi : s / 65536 = e / 65536) (hlo : e % 65536 < 65535)
    (he32 : e < 4294967296) (hkey : mac ∉ L.map Prod.fst)
    (hvals : ∀ ip, ip ∈ leaseValues L ↔ (s ≤ ip ∧ ip < s + k)) :
    IpPool.allocate ⟨s, e, s + k, L⟩ mac =
      (some (s + k), ⟨s, e, s + k + 1, (mac, s + k) :: L⟩) := by
  unfold IpPool.allocate
  rw [lookup_eq_none_of_not_mem_keys L mac hkey]
  have hfound : allocLoop s e (s + k) (leaseValues L) (s + k) POOL_FUEL = some (s + k) := by
    refine allocLoop_found s e (s + k) (s + k) _ POOL_FUEL (by norm_num [POOL_FUEL])
      (by omega) ?_
    intro hmem
    exact absurd ((hvals _).1 hmem) (by omega)
  rw [hfound]
  have hstep : ipStep (s + k) = s + k + 1 := ipStep_eq_succ _ (by omega) (by omega)
  show (some (s + k), IpPool.mk s e (ipStep (s + k)) ((mac, s + k) :: L)) = _
  rw [hstep]

theorem allocate_exhausted (s e : Nat) (L : List (Mac × Nat)) (mac : Mac)
    (hse : s ≤ e) (hhi : s / 65536 = e / 65536) (hlo : e % 65536 < 65535)
    (he32 : e < 4294967296) (hkey : mac ∉ L.map Prod.fst)
    (hvals : ∀ ip, ip ∈ leaseValues L ↔ (s ≤ ip ∧ ip ≤ e)) :
    IpPool.allocate ⟨s, e, e + 1, L⟩ mac = (none, ⟨s, e, e + 1, L⟩) := by
  unfold IpPool.allocate
  rw [lookup_eq_none_of_not_mem_keys L mac hkey]
  have hnone : allocLoop s e (e + 1) (leaseValues L) (e + 1) POOL_FUEL = none := by
    rw [show POOL_FUEL = 4294967297 + 1 from rfl]
    rw [allocLoop]
    rw [if_pos (by omega : e < e + 1), if_pos ((hvals s).2 ⟨le_refl s, hse⟩)]
    have hstep : ipStep s = s + 1 := ipStep_eq_succ _ (by omega) (by omega)
    rw [hstep]
    by_cases hs : s + 1 = e + 1
    · rw [if_pos hs]
    · rw [if_neg hs]
      have : s + 1 = s + 1 := rfl
      exact allocLoop_exhaust_inner s e (leaseValues L)
        (fun ip h1 h2 => (hvals ip).2 ⟨h1, h2⟩) hse hhi hlo he32 4294967297 1
        (by omega) (by omega) (by omega)
  rw [hnone]

theorem runAllocs_core (s e : Nat) (hse : s ≤ e) (hhi : s / 65536 = e / 65536)
    (hlo : e % 65536 < 65535) (he32 : e < 4294967296) :
    ∀ (macs : List Mac) (k : Nat) (L : List (Mac × Nat)),
      macs.Nodup → (∀ m ∈ macs, m ∉ L.map Prod.fst) →
      (∀ ip, ip ∈ leaseValues L ↔ (s ≤ ip ∧ ip < s + k)) →
      k ≤ e - s + 1 → k + macs.length = e - s + 2 →
      (runAllocs ⟨s, e, s + k, L⟩ macs).1 =
        (List.range (e - s + 1 - k)).map (fun i => some (s + k + i)) ++ [none] := by
  intro macs
  induction macs with
  | nil => intro k L _ _ _ hk hlen; simp at hlen; omega
  | cons m ms ih =>
    intro k L hnd hfresh hvals hk hlen
    simp only [List.length_cons] at hlen
    by_cases hkmax : k ≤ e - s
    · -- room left: this call allocates s + k
      have halloc := allocate_fresh s e k L m hkmax hse hhi hlo he32
        (hfresh m (List.mem_cons_self m ms)) hvals
      simp only [runAllocs, halloc]
      have hrec := ih (k + 1) ((m, s + k) :: L) hnd.of_cons
        (fun m' hm' => by
          simp only [List.map_cons, List.mem_cons]
          push_neg
          refine ⟨?_, hfresh m' (List.mem_cons_of_mem m hm')⟩
          intro hcontra
          exact (List.nodup_cons.mp hnd).1 (hcontra ▸ hm'))
        (fun ip => by
          simp only [leaseValues, List.map_cons, List.mem_cons]
          constructor
          · rintro (rfl | hm)
            · omega
            · have := (hvals ip).1 hm
              omega
          · intro hip
            by_cases hip' : ip = s + k
            · exact Or.inl hip'
            · exact Or.inr ((hvals ip).2 (by omega)))
        (by omega) (by omega)
      rw [show s + k + 1 = s + (k + 1) from by omega] at *
      rw [hrec]
      have h1 : e - s + 1 - (k + 1) = e - s - k := by omega
      have hn : e - s + 1 - k = (e - s - k) + 1 := by omega
      rw [h1, hn, List.range_succ_eq_map, List.map_cons, List.map_map, List.cons_append]
      refine congrArg₂ List.cons (by simp) (congrArg (· ++ [none]) ?_)
      apply List.map_congr_left
      intro i _
      show some (s + (k + 1) + i) = some (s + k + Nat.succ i)
      exact congrArg some (by omega)
    · -- pool full: k = e - s + 1, cursor is e + 1, this call exhausts
      have hkeq : k = e - s + 1 := by omega
      have hms : ms = [] := by
        have : ms.length = 0 := by omega
        exact List.length_eq_zero.mp this
      subst hms
      subst hkeq
      have halloc := allocate_exhausted s e L m hse hhi hlo he32
        (hfresh m (List.mem_cons_self m []))
        (fun ip => by
          rw [hvals ip]
          omega)
      rw [show s + (e - s + 1) = e + 1 from by omega] at *
      simp only [runAllocs, halloc]
      simp

/-- Claim C2 (amended).  For a pool whose start and end (32-bit values)
share their upper 16 bits, with the low 16 bits of end below 0xFFFF and
start ≤ end: allocating for `N+1` pairwise-distinct MACs (pool size
`N = end - start + 1`) returns exactly start, start+1, …, end followed by
`None` — the cursor steps are exact increments inside such a pool. -/
theorem c2_pool_amended (s e : Nat) (macs : List Mac)
    (hse : s ≤ e) (hhi : s / 65536 = e / 65536) (hlo : e % 65536 < 65535)
    (he32 : e < 4294967296) (hnd : macs.Nodup) (hlen : macs.length = e - s + 2) :
    (runAllocs ⟨s, e, s, []⟩ macs).1 =
      (List.range (e - s + 1)).map (fun i => some (s + i)) ++ [none] := by
  have h := runAllocs_core s e hse hhi hlo he32 macs 0 [] hnd (by simp)
    (fun ip => by simp [leaseValues]) (by omega) (by omega)
  simpa using h

/-- Claim C2 witness: the amended theorem applied to the concrete pool
10.0.0.10 – 10.0.0.12 and four distinct MACs. -/
theorem c2_pool_witness :
    (runAllocs ⟨167772170, 167772172, 167772170, []⟩ macsW).1 =
      (List.range (167772172 - 167772170 + 1)).map (fun i => some (167772170 + i)) ++ [none] :=
  c2_pool_amended 167772170 167772172 macsW (by norm_num) (by norm_num) (by norm_num)
    (by norm_num) (by decide) (by decide)

/-- Claim C2 counterexample.  The scan does not step by a 32-bit increment:
for the pool 10.0.255.255 (167837695) – 10.1.0.2 (167837698), start ≤ end
as 32-bit values, the second distinct MAC is allocated 10.0.0.0
(167772160), which lies outside `[start, end]` (the carry from octet 3
never reaches octet 1). -/
theorem c2_pool_counterexample :
    (runAllocs ⟨167837695, 167837698, 167837695, []⟩ [[0,0,0,0,0,1], [0,0,0,0,0,2]]).1 =
      [some 167837695, some 167772160] ∧ ¬ (167837695 ≤ 167772160) := by
  constructor
  · decide
  · decide

/-- Claim C5 (corrected).  `select_protocol` falls through to the default
selection (first enabled of EFI, Legacy, DhcpBoot) only when the client
architecture is absent or not in {0, 1, 6}; for arch 6 it returns EFI or
`None` (even when another protocol is enabled), for arch 0/1 Legacy or
`None`; with no architecture, `None` is returned exactly when no protocol
is enabled. -/
theorem c5_select_protocol_amended (c : ProtocolConfig) (a : Option Nat) :
    ((∀ k, a = some k → k ≠ 6 ∧ k ≠ 0 ∧ k ≠ 1) →
      selectProtocol c a =
        (if c.efi then some .efi else if c.legacy then some .legacy
         else if c.dhcp_boot then some .dhcpBoot else none)) ∧
    (selectProtocol c (some 6) = if c.efi then some .efi else none) ∧
    (selectProtocol c (some 0) = if c.legacy then some .legacy else none) ∧
    (selectProtocol c (some 1) = if c.legacy then some .legacy else none) ∧
    (selectProtocol c none = none ↔
      c.efi = false ∧ c.legacy = false ∧ c.dhcp_boot = false) := by
  refine ⟨?_, rfl, rfl, rfl, ?_⟩
  · intro h
    rcases a with _ | n
    · rfl
    · obtain ⟨h6, h0, h1⟩ := h n rfl
      rcases n with _ | _ | _ | _ | _ | _ | _ | m
      · exact absurd rfl h0
      · exact absurd rfl h1
      · rfl
      · rfl
      · rfl
      · rfl
      · exact absurd rfl h6
      · rfl
  · show defaultSelect c = none ↔ _
    unfold defaultSelect
    cases hefi : c.efi <;> cases hleg : c.legacy <;> cases hdb : c.dhcp_boot <;> simp

/-- Claim C5 witness: the fall-through conjunct applied at arch 2 with
EFI disabled and Legacy enabled. -/
theorem c5_select_protocol_witness :
    selectProtocol ⟨false, true, true, none, none, none⟩ (some 2) =
      (if (⟨false, true, true, none, none, none⟩ : ProtocolConfig).efi then some .efi
       else if (⟨false, true, true, none, none, none⟩ : ProtocolConfig).legacy then some .legacy
       else if (⟨false, true, true, none, none, none⟩ : ProtocolConfig).dhcp_boot
       then some .dhcpBoot else none) :=
  (c5_select_protocol_amended ⟨false, true, true, none, none, none⟩ (some 2)).1
    (fun k hk => by cases hk; exact ⟨by decide, by decide, by decide⟩)

/-- Claim C5 counterexample.  With EFI disabled but Legacy enabled, arch 6
yields `None` — no fall-through to the default selection and not the
`None`-only-when-nothing-enabled behaviour the claim states. -/
theorem c5_select_protocol_counterexample :
    selectProtocol ⟨false, true, true, none, none, none⟩ (some 6) = none ∧
    (⟨false, true, true, none, none, none⟩ : ProtocolConfig).legacy = true := by
  exact ⟨rfl, rfl⟩

theorem val16_be16 (b : Nat) (h : b < 65536) : val16 (b / 256 % 256) (b % 256) = b := by
  simp only [val16]
  omega

theorem nextBlock_lt (b : Nat) : nextBlock b < 65536 := by
  simp only [nextBlock]
  split <;> omega

theorem nextBlock_pos (b : Nat) : 1 ≤ nextBlock b := by
  simp only [nextBlock]
  split <;> omega

theorem matching_ack_fields (b : Nat) (hb : b < 65536) :
    4 ≤ ([0, 4] ++ be16 b).length ∧
    val16 (([0, 4] ++ be16 b).getD 0 0) (([0, 4] ++ be16 b).getD 1 0) = 4 ∧
    val16 (([0, 4] ++ be16 b).getD 2 0) (([0, 4] ++ be16 b).getD 3 0) = b := by
  refine ⟨by simp [be16], by simp [be16, val16], ?_⟩
  simp [be16, val16, List.getD]
  omega

theorem transferLoop_eq_lockstep (fileData : List Nat) :
    ∀ n b offset, fileData.length - offset ≤ n → b < 65536 →
      transferLoop fileData b offset (matchingAcks b (fileData.length - offset)) =
        lockstepTrace fileData b offset := by
  intro n
  induction n with
  | zero =>
    intro b offset hn hb
    rw [matchingAcks, if_pos (by omega), lockstepTrace, if_pos (by omega)]
    simp only [transferLoop]
    rw [if_pos (matching_ack_fields b hb).1,
      if_pos ⟨(matching_ack_fields b hb).2.1, (matching_ack_fields b hb).2.2⟩]
    rw [if_pos (by omega), show min (fileData.length - offset) 512 = fileData.length - offset
      from by omega]
  | succ n ih =>
    intro b offset hn hb
    by_cases hrem : fileData.length - offset < 512
    · rw [matchingAcks, if_pos hrem, lockstepTrace, if_pos hrem]
      simp only [transferLoop]
      rw [if_pos (matching_ack_fields b hb).1,
        if_pos ⟨(matching_ack_fields b hb).2.1, (matching_ack_fields b hb).2.2⟩]
      rw [if_pos (by omega), show min (fileData.length - offset) 512 = fileData.length - offset
        from by omega]
    · rw [matchingAcks, if_neg hrem, lockstepTrace, if_neg hrem]
      simp only [transferLoop]
      rw [if_pos (matching_ack_fields b hb).1,
        if_pos ⟨(matching_ack_fields b hb).2.1, (matching_ack_fields b hb).2.2⟩]
      rw [if_neg (by omega : ¬ min (fileData.length - offset) 512 < 512),
        show min (fileData.length - offset) 512 = 512 from by omega]
      have harg : fileData.length - offset - 512 = fileData.length - (offset + 512) := by omega
      rw [harg]
      rw [ih (nextBlock b) (offset + 512) (by omega) (nextBlock_lt b)]

theorem sentOf_lockstep (fileData : List Nat) :
    ∀ n b offset, fileData.length - offset ≤ n →
      sentOf (lockstepTrace fileData b offset) = sendPairs b (fileData.length - offset) := by
  intro n
  induction n with
  | zero =>
    intro b offset hn
    rw [lockstepTrace, if_pos (by omega), sendPairs, if_pos (by omega)]
    simp [sentOf, List.length_take, List.length_drop]
  | succ n ih =>
    intro b offset hn
    by_cases hrem : fileData.length - offset < 512
    · rw [lockstepTrace, if_pos hrem, sendPairs, if_pos hrem]
      simp [sentOf, List.length_take, List.length_drop]
    · rw [lockstepTrace, if_neg hrem, sendPairs, if_neg hrem]
      simp only [sentOf]
      rw [ih (nextBlock b) (offset + 512) (by omega)]
      rw [show fileData.length - (offset + 512) = fileData.length - offset - 512 from by omega]
      congr 2
      simp [List.length_take, List.length_drop]
      omega

theorem sendPairs_length (rem : Nat) : ∀ b, (sendPairs b rem).length = rem / 512 + 1 := by
  induction rem using Nat.strong_induction_on with
  | _ rem ih =>
    intro b
    rw [sendPairs]
    split
    · simp
      omega
    · rw [List.length_cons, ih (rem - 512) (by omega)]
      omega

theorem sendPairs_fst (rem : Nat) :
    ∀ b, (sendPairs b rem).map Prod.fst = blockSeq b (rem / 512 + 1) := by
  induction rem using Nat.strong_induction_on with
  | _ rem ih =>
    intro b
    rw [sendPairs]
    split
    · rw [show rem / 512 + 1 = 1 from by omega]
      simp [blockSeq]
    · rw [show rem / 512 + 1 = (rem - 512) / 512 + 1 + 1 from by omega, List.map_cons,
        ih (rem - 512) (by omega)]
      rfl

theorem getLast?_cons_of_ne {α : Type} (a : α) (l : List α) (h : l ≠ []) :
    (a :: l).getLast? = l.getLast? := by
  cases l with
  | nil => exact absurd rfl h
  | cons b t => rfl

theorem sendPairs_last (rem : Nat) :
    ∀ b, ((sendPairs b rem).map Prod.snd).getLast? = some (rem % 512) := by
  induction rem using Nat.strong_induction_on with
  | _ rem ih =>
    intro b
    rw [sendPairs]
    split
    · simp
      omega
    · simp only [List.map_cons]
      have hne : (sendPairs (nextBlock b) (rem - 512)).map Prod.snd ≠ [] := by
        apply List.length_pos.mp
        simp [sendPairs_length]
      rw [getLast?_cons_of_ne _ _ hne, ih (rem - 512) (by omega)]
      rw [show (rem - 512) % 512 = rem % 512 from by omega]

theorem lockstepShape_lockstepTrace (fileData : List Nat) :
    ∀ n b offset, fileData.length - offset ≤ n →
      LockstepShape (lockstepTrace fileData b offset) := by
  intro n
  induction n with
  | zero =>
    intro b offset hn
    rw [lockstepTrace, if_pos (by omega)]
    exact .last b _
  | succ n ih =>
    intro b offset hn
    by_cases hrem : fileData.length - offset < 512
    · rw [lockstepTrace, if_pos hrem]
      exact .last b _
    · rw [lockstepTrace, if_neg hrem]
      exact .step b _ _ (ih (nextBlock b) (offset + 512) (by omega))

theorem blockSeq_one_getD : ∀ n b i, 1 ≤ b → b ≤ 65535 → i < n →
    (blockSeq b n).getD i 0 = (b - 1 + i) % 65535 + 1 := by
  intro n
  induction n with
  | zero => intro b i _ _ h; omega
  | succ n ih =>
    intro b i hb1 hb2 hi
    cases i with
    | zero =>
      show b = (b - 1 + 0) % 65535 + 1
      rw [Nat.mod_eq_of_lt (by omega)]
      omega
    | succ j =>
      show (blockSeq (nextBlock b) n).getD j 0 = (b - 1 + (j + 1)) % 65535 + 1
      by_cases hb : b = 65535
      · subst hb
        rw [show nextBlock 65535 = 1 from by norm_num [nextBlock]]
        rw [ih 1 j (by norm_num) (by norm_num) (by omega)]
        omega
      · have hnb : nextBlock b = b + 1 := by
          simp only [nextBlock]
          rw [Nat.mod_eq_of_lt (by omega), if_neg (by omega)]
        rw [hnb, ih (b + 1) j (by omega) (by omega) (by omega)]
        omega

/-- Claim C3 (amended).  For a fully-acknowledged transfer of a file of
length L: exactly `L/512 + 1` DATA packets are sent, which equals
`ceil(L/512)` plus one iff `L` is a multiple of 512; the last payload has
length `L mod 512`; the block numbers are 1, 2, … advancing by
`nextBlock` (wrapping from 65535 back to 1); and the trace is in strict
send/ack lockstep. -/
theorem c3_tftp_amended (fileData : List Nat) :
    (sentOf (transferLoop fileData 1 0 (matchingAcks 1 fileData.length))).length
        = fileData.length / 512 + 1 ∧
    fileData.length / 512 + 1 =
      (fileData.length + 511) / 512 + (if fileData.length % 512 = 0 then 1 else 0) ∧
    ((sentOf (transferLoop fileData 1 0 (matchingAcks 1 fileData.length))).map
        Prod.snd).getLast? = some (fileData.length % 512) ∧
    (sentOf (transferLoop fileData 1 0 (matchingAcks 1 fileData.length))).map Prod.fst
        = blockSeq 1 (fileData.length / 512 + 1) ∧
    LockstepShape (transferLoop fileData 1 0 (matchingAcks 1 fileData.length)) := by
  have heq : transferLoop fileData 1 0 (matchingAcks 1 fileData.length) =
      lockstepTrace fileData 1 0 := by
    have h := transferLoop_eq_lockstep fileData fileData.length 1 0 (by omega) (by omega)
    simpa using h
  have hsent : sentOf (lockstepTrace fileData 1 0) = sendPairs 1 fileData.length := by
    have h := sentOf_lockstep fileData fileData.length 1 0 (by omega)
    simpa using h
  refine ⟨?_, ?_, ?_, ?_, ?_⟩
  · rw [heq, hsent, sendPairs_length]
  · by_cases h : fileData.length % 512 = 0 <;> simp [h] <;> omega
  · rw [heq, hsent, sendPairs_last]
  · rw [heq, hsent, sendPairs_fst]
  · rw [heq]
    exact lockstepShape_lockstepTrace fileData fileData.length 1 0 (by omega)

/-- Claim C3 counterexample.  Block numbers do not increase by 1 per block
for every L: for a file of length 512·65535 + 1 the 65536th DATA packet
carries block number 1 (the u16 counter wraps to 1), not 65536. -/
theorem c3_tftp_counterexample :
    ((sentOf (transferLoop (List.replicate 33553921 0) 1 0
        (matchingAcks 1 (List.replicate 33553921 0).length))).map Prod.fst).getD 65535 0
      = 1 ∧ (1 : Nat) ≠ 65535 + 1 := by
  have hL := List.length_replicate 33553921 (0 : Nat)
  have hsub : (List.replicate 33553921 (0 : Nat)).length - 0 =
      (List.replicate 33553921 (0 : Nat)).length := by omega
  constructor
  · have heq := transferLoop_eq_lockstep (List.replicate 33553921 0) 33553921 1 0
      (by rw [hL]) (by norm_num)
    rw [hsub] at heq
    have hsent := sentOf_lockstep (List.replicate 33553921 0) 33553921 1 0 (by rw [hL])
    rw [hsub] at hsent
    rw [heq, hsent, hL, sendPairs_fst]
    rw [show (33553921 : Nat) / 512 + 1 = 65536 from by norm_num]
    rw [blockSeq_one_getD 65536 1 65535 (by norm_num) (by norm_num) (by norm_num)]
  · norm_num

/-- Claim C6 (code bug).  A reply to a DHCP Request (message type 3)
begins with option 53 = 2 (Offer), not 5 (ACK): `build_options` hardcodes
the value 2 and takes no message-type parameter, although `handle_request`
computes one (and passes it — the crate as given does not compile). -/
theorem c6_offer_type_bug :
    getMessageType reqRequest = some 3 ∧
    (handleRequest reqRequest pool0 cfg0).1.map (fun rb => rb.1.options.take 3)
      = some [53, 1, 2] := by
  have hmsg : getMessageType reqRequest = some 3 := by
    rw [getMessageType]
    rw [show reqRequest.options = [53, 1, 3, 255] from rfl, getOption, getOptionAux]
    norm_num [List.getD]
  have harch : getClientArch reqRequest = none := by
    rw [getClientArch]
    rw [show reqRequest.options = [53, 1, 3, 255] from rfl, getOption, getOptionAux]
    norm_num [List.getD]
    rw [getOptionAux]
    norm_num [List.getD]
  have halloc : pool0.allocate (reqRequest.chaddr.take 6) =
      (some 3232235876,
        ⟨3232235876, 3232235976, 3232235877, [(reqRequest.chaddr.take 6, 3232235876)]⟩) := by
    have h := allocate_fresh 3232235876 3232235976 0 [] (reqRequest.chaddr.take 6)
      (by norm_num) (by norm_num) (by norm_num) (by norm_num) (by norm_num)
      (by simp) (fun ip => by simp [leaseValues])
    simpa using h
  refine ⟨hmsg, ?_⟩
  rw [handleRequest, hmsg]
  dsimp only
  rw [if_neg (by norm_num)]
  rw [halloc]
  dsimp only
  rw [harch]
  rfl

/-- Claim C4 (confirmed).  `resolve_path` strips leading '/', joins the
remainder onto the canonical root and canonicalizes: a failed
canonicalization yields `NotFound`; a canonical result that does not have
the root as a path prefix yields `InvalidPath`; every `Ok` result has the
root as a path prefix, so no operation resolves outside the root. -/
theorem c4_resolve_path (canon : List (List Char) → Option (List (List Char)))
    (root : List (List Char)) (path : List Char) :
    (canon (root ++ (path.dropWhile (· = '/')).splitOn '/') = none →
      resolvePath canon root path = .error (.notFound path)) ∧
    (∀ full, canon (root ++ (path.dropWhile (· = '/')).splitOn '/') = some full →
      root.isPrefixOf full = false →
      resolvePath canon root path = .error (.invalidPath "Path traversal detected".data)) ∧
    (∀ full, resolvePath canon root path = .ok full → root.isPrefixOf full = true) := by
  refine ⟨?_, ?_, ?_⟩
  · intro h
    simp only [resolvePath, h]
  · intro full h hpre
    simp only [resolvePath, h, hpre]
    rfl
  · intro full h
    simp only [resolvePath] at h
    cases hc : canon (root ++ (path.dropWhile (· = '/')).splitOn '/') with
    | none => rw [hc] at h; exact absurd h (by simp)
    | some f =>
      rw [hc] at h
      by_cases hp : root.isPrefixOf f
      · simp [hp] at h
        exact h ▸ hp
      · simp [hp] at h

/-- Claim C4 witness: the three branches exercised with concrete
canonicalization oracles. -/
theorem c4_resolve_path_witness :
    resolvePath (fun _ => none) [['r','o','o','t']] ['/', 'a'] =
      .error (.notFound ['/', 'a']) ∧
    resolvePath (fun _ => some [['x']]) [['r','o','o','t']] ['/', 'a'] =
      .error (.invalidPath "Path traversal detected".data) ∧
    ([['r','o','o','t']] : List (List Char)).isPrefixOf [['r','o','o','t'], ['a']] = true :=
  ⟨(c4_resolve_path (fun _ => none) [['r','o','o','t']] ['/', 'a']).1 rfl,
   (c4_resolve_path (fun _ => some [['x']]) [['r','o','o','t']] ['/', 'a']).2.1 [['x']] rfl
     (by decide),
   (c4_resolve_path (fun l => some l) [['r','o','o','t']] ['/', 'a']).2.2
     [['r','o','o','t'], ['a']] rfl⟩

theorem listDirLoop_mem (allKeys : List (List Char)) (pre : List Char) :
    ∀ (rest seen acc : List (List Char)) (name : List Char),
      name ∈ listDirLoop allKeys pre rest seen acc ↔
        name ∈ acc ∨ ∃ k, k ∈ rest ∧ pre.isPrefixOf k = true ∧
          (k.drop pre.length).takeWhile (· ≠ '/') ∉ seen ∧
          name = dispName allKeys pre ((k.drop pre.length).takeWhile (· ≠ '/')) := by
  intro rest
  induction rest with
  | nil => simp [listDirLoop]
  | cons k t ih =>
    intro seen acc name
    by_cases hp : pre.isPrefixOf k = true
    · rw [listDirLoop, if_pos hp]
      by_cases hseen : (k.drop pre.length).takeWhile (· ≠ '/') ∈ seen
      · rw [if_pos hseen, ih]
        constructor
        · rintro (h | ⟨k', hk', h1, h2, h3⟩)
          · exact Or.inl h
          · exact Or.inr ⟨k', List.mem_cons_of_mem k hk', h1, h2, h3⟩
        · rintro (h | ⟨k', hk', h1, h2, h3⟩)
          · exact Or.inl h
          · rcases List.mem_cons.1 hk' with rfl | hk''
            · exact absurd hseen h2
            · exact Or.inr ⟨k', hk'', h1, h2, h3⟩
      · rw [if_neg hseen, ih]
        constructor
        · rintro (h | ⟨k', hk', h1, h2, h3⟩)
          · rcases List.mem_append.1 h with h' | h'
            · exact Or.inl h'
            · refine Or.inr ⟨k, List.mem_cons_self k t, hp, hseen, ?_⟩
              simpa using h'
          · refine Or.inr ⟨k', List.mem_cons_of_mem k hk', h1, ?_, h3⟩
            intro hcon
            exact h2 (List.mem_cons_of_mem _ hcon)
        · rintro (h | ⟨k', hk', h1, h2, h3⟩)
          · exact Or.inl (List.mem_append_left _ h)
          · rcases List.mem_cons.1 hk' with rfl | hk''
            · exact Or.inl (List.mem_append_right _ (by simpa using h3))
            · by_cases hs : (k'.drop pre.length).takeWhile (· ≠ '/') =
                  (k.drop pre.length).takeWhile (· ≠ '/')
              · refine Or.inl (List.mem_append_right _ ?_)
                rw [h3, hs]
                exact List.mem_cons_self _ _
              · refine Or.inr ⟨k', hk'', h1, ?_, h3⟩
                intro hcon
                rcases List.mem_cons.1 hcon with hc | hc
                · exact hs hc
                · exact h2 hc
    · rw [listDirLoop, if_neg hp, ih]
      constructor
      · rintro (h | ⟨k', hk', h1, h2, h3⟩)
        · exact Or.inl h
        · exact Or.inr ⟨k', List.mem_cons_of_mem k hk', h1, h2, h3⟩
      · rintro (h | ⟨k', hk', h1, h2, h3⟩)
        · exact Or.inl h
        · rcases List.mem_cons.1 hk' with rfl | hk''
          · exact absurd h1 hp
          · exact Or.inr ⟨k', hk'', h1, h2, h3⟩

/-- Claim C9 (corrected).  A name is returned by `list_dir(p)` exactly when
it is the display form (first segment, '/'-suffixed iff some stored key
strictly extends it) of some stored key starting with the normalized
prefix; the directory's own entry `p + "/"` contributes an empty name, so
returned names are not always non-empty. -/
theorem c9_list_dir_amended (keys : List (List Char)) (path name : List Char) :
    name ∈ listDir keys path ↔
      ∃ k, k ∈ keys ∧ (listPre (path.dropWhile (· = '/'))).isPrefixOf k = true ∧
        name = dispName keys (listPre (path.dropWhile (· = '/')))
          ((k.drop (listPre (path.dropWhile (· = '/'))).length).takeWhile (· ≠ '/')) := by
  rw [listDir, listDirLoop_mem]
  simp

/-- Claim C9 counterexample.  For the archive {a.txt, dir/, dir/b.txt},
`list_dir("dir")` returns the empty name (from the key `dir/` itself)
alongside `b.txt`, contradicting the claim that every returned name is a
non-empty immediate-child name. -/
theorem c9_list_dir_counterexample :
    listDir ["a.txt".data, "dir/".data, "dir/b.txt".data] "dir".data
      = [[], "b.txt".data] ∧ ([] : List Char) ∈ listDir ["a.txt".data, "dir/".data,
        "dir/b.txt".data] "dir".data := by
  constructor
  · decide
  · decide

theorem mem_insertPeer_self (p : Nat) (l : List Nat) : p ∈ insertPeer p l := by
  unfold insertPeer
  split
  · assumption
  · exact List.mem_cons_self p l

theorem mem_insertPeer_of_mem (p q : Nat) (l : List Nat) (h : q ∈ l) :
    q ∈ insertPeer p l := by
  unfold insertPeer
  split
  · exact h
  · exact List.mem_cons_of_mem p h

theorem mem_removePeer (p q : Nat) (l : List Nat) (h : q ∈ l) (hne : q ≠ p) :
    q ∈ removePeer p l :=
  List.mem_filter.2 ⟨h, by simpa using hne⟩

theorem mem_transfers_foldl (decode : List Nat → Option (List Char)) (peer : Nat) :
    ∀ (events : List TftpLoopEvent) (s : TftpLoopState), peer ∈ s.transfers →
      (∀ e ∈ events, eventPeer e ≠ peer) →
      peer ∈ (events.foldl (tftpStep decode) s).transfers := by
  intro events
  induction events with
  | nil => intro s h _; exact h
  | cons e t ih =>
    intro s h hall
    rw [List.foldl_cons]
    refine ih _ ?_ (fun e' he' => hall e' (List.mem_cons_of_mem e he'))
    have hne : eventPeer e ≠ peer := hall e (List.mem_cons_self e t)
    cases e with
    | rrq q payload =>
      simp only [tftpStep]
      cases TftpPacketM.extractFilename decode ⟨.readRequest, payload⟩ with
      | none => exact mem_insertPeer_of_mem q peer _ h
      | some _ => exact mem_insertPeer_of_mem q peer _ h
    | ackFrom q ok =>
      simp only [tftpStep]
      split
      · exact mem_removePeer q peer _ h (fun hc => hne (by simp [eventPeer, hc]))
      · exact h
    | taskExit q =>
      simp only [tftpStep]
      split
      · exact mem_removePeer q peer _ h (fun hc => hne (by simp [eventPeer, hc]))
      · exact h

/-- Claim C10 (confirmed).  Processing an RRQ registers the peer in the
transfers map before the filename is extracted; a payload with no NUL byte
makes `extract_filename` return `None`, so no task is spawned; and after
any sequence of further events not involving this peer (the only removal
sites are the peer's own task and a failed forward of the peer's ACK) the
entry is still present. -/
theorem c10_malformed_rrq (decode : List Nat → Option (List Char))
    (s₀ : TftpLoopState) (peer : Nat) (payload : List Nat)
    (events : List TftpLoopEvent)
    (hnul : payload.findIdx? (fun b => b == 0) = none)
    (hothers : ∀ e ∈ events, eventPeer e ≠ peer) :
    TftpPacketM.extractFilename decode ⟨.readRequest, payload⟩ = none ∧
    peer ∈ (tftpStep decode s₀ (.rrq peer payload)).transfers ∧
    (tftpStep decode s₀ (.rrq peer payload)).tasks = s₀.tasks ∧
    peer ∈ (events.foldl (tftpStep decode) (tftpStep decode s₀ (.rrq peer payload))).transfers
    := by
  have hext : TftpPacketM.extractFilename decode ⟨.readRequest, payload⟩ = none := by
    rw [TftpPacketM.extractFilename, if_pos (Or.inl rfl)]
    simp only [hnul]
  refine ⟨hext, ?_, ?_, ?_⟩
  · simp only [tftpStep, hext]
    exact mem_insertPeer_self peer s₀.transfers
  · simp only [tftpStep, hext]
  · refine mem_transfers_foldl decode peer events _ ?_ hothers
    simp only [tftpStep, hext]
    exact mem_insertPeer_self peer s₀.transfers

/-- Claim C10 witness: a malformed RRQ from peer 1 followed by unrelated
traffic from peer 2. -/
theorem c10_malformed_rrq_witness :
    ([114, 114] : List Nat).findIdx? (fun b => b == 0) = none ∧
    (∀ e ∈ ([.ackFrom 2 false, .rrq 2 [0], .taskExit 2] : List TftpLoopEvent),
      eventPeer e ≠ 1) ∧
    (1 ∈ (([.ackFrom 2 false, .rrq 2 [0], .taskExit 2] : List TftpLoopEvent).foldl
      (tftpStep (fun _ => some [])) (tftpStep (fun _ => some []) ⟨[], []⟩
        (.rrq 1 [114, 114]))).transfers) :=
  ⟨by decide, by decide,
    (c10_malformed_rrq (fun _ => some []) ⟨[], []⟩ 1 [114, 114] _
      (by decide) (by decide)).2.2.2⟩
